import Mathlib

/-!
# A shallow embedding of the monitor-scraper block-range scanning engine

This development models, in Lean, the core of the `monitor-scraper` service:

* `contract_event_filter.py` — the `ContractEventFilter` class (filter state,
  stale-handle retry loop, sorting of fetched entries, cursor advance);
* `contracts_reader.py` — `find_log` and the event classifier
  `distribute_events`;
* `utils.py` — `distribute_events_by_blocks`, `calculate_apr`,
  `decrease_range_of_blocks`;
* `aggregated_metrics_exporter.py` — the per-block fold
  (`get_and_process_aggregated_data`, `_process_deposited_and_redeemed_events`,
  `_process_rewards_and_losses_events`, `_process_transfer_events`) and the
  scan cycle `_run`.

Conventions of the embedding:

* Python ints are `Int` (block heights, token amounts) or `Nat` (window sizes,
  list indices); Python floats are `ℚ` (all float arithmetic in the modelled
  code is ratios of integers, so rationals represent it exactly; the only
  float constant, the `0.1` shrink coefficient, is modelled as the exact
  ratio 1/10 so that `int(range * 0.1)` becomes Nat division by 10).
* Python dicts (which preserve insertion order) are ordered association
  lists; dict-key iteration order is association-list order.
* The database tables written and read by the fold (`reward`, `holder`) are
  carried inside the aggregator state; chain reads performed by the fold
  (the set of ledger addresses) and the provider responses (fetched log
  entries, decoded receipt logs) are explicit parameters.
* A Python statement that raises is modelled with `Option`/an error
  constructor in the result type.
-/

/-- The topic hashes the classifier compares against: the five known Nimbus
event signatures, plus `other` for any unrecognised hash. -/
inductive Topic where
  | deposited
  | losses
  | redeemed
  | rewards
  | transfer
  | other
deriving DecidableEq

/-- A raw log entry as returned by the provider filter
(`w3.eth.filter(...).get_all_entries()`).  `receiver` models the value
`'0x' + topics[2].hex()[26:]` that `_process_transfer_events` later derives
from the raw topics; `transactionHash` is an abstract transaction id. -/
structure RawLog where
  blockNumber : Nat := 0
  logIndex : Nat := 0
  transactionHash : Nat := 0
  topics : List Topic := []
  receiver : String := ""
deriving DecidableEq

/-- A typed event record: either a rich log obtained by replaying a
transaction receipt (`Deposited`/`Redeemed`/`Rewards`/`Losses`, with decoded
`args`), or a raw Transfer log kept as-is.  `event` is the event-type name of
a rich log; `amount` is `args.amount` (Deposited/Redeemed), `args.rewards`
(Rewards) or `args.losses` (Losses); `ledger` and `balance` are the
corresponding `args` fields of Rewards/Losses events. -/
structure AggEvent where
  blockNumber : Nat := 0
  logIndex : Nat := 0
  event : String := ""
  amount : Int := 0
  ledger : String := ""
  balance : Int := 0
  receiver : String := ""
deriving DecidableEq

/-- The classifier output: an ordered dict from event-type name to event
list, keys in Python-dict insertion order. -/
abbrev EventsDict := List (String × List AggEvent)

/-- The output of `distribute_events_by_blocks`: an ordered dict from block
number to a per-block `EventsDict` group. -/
abbrev BlockDist := List (Nat × EventsDict)

/-- A row of the `reward` database table: `(ledger, reward, balance, block)`,
exactly the tuple shape `calculate_apr` indexes with `reward[1]`/`reward[2]`. -/
structure RewardRow where
  ledger : String := ""
  reward : Int := 0
  balance : Int := 0
  block : Nat := 0
deriving DecidableEq

/-! ## Stable sorting by a natural-number key

`ContractEventFilter.get_all_entries` calls Python's `sorted(entries, key=
lambda event: event.get('blockNumber'))` and `DatabaseManager.get_rewards`
orders rows by block descending.  Python's `sorted` is a stable ascending
sort; we model it with a stable insertion sort by key. -/

/-- Insert `e` before the first element whose key is not smaller than
`key e`; elements with an equal key that are already present stay in front
of nothing — `e` goes before them, matching a stable sort where `e` is the
earliest-input element during the fold below. -/
def insertAscBy {α : Type} (key : α → Nat) (e : α) : List α → List α
  | [] => [e]
  | x :: xs => if key x < key e then x :: insertAscBy key e xs else e :: x :: xs

/-- Stable ascending sort by key (model of Python `sorted(..., key=...)`). -/
def sortAscBy {α : Type} (key : α → Nat) : List α → List α
  | [] => []
  | x :: xs => insertAscBy key x (sortAscBy key xs)

/-- Insert `e` after every element with a strictly larger key (descending
order, stable). -/
def insertDescBy {α : Type} (key : α → Nat) (e : α) : List α → List α
  | [] => [e]
  | x :: xs => if key e < key x then x :: insertDescBy key e xs else e :: x :: xs

/-- Stable descending sort by key (model of SQL `ORDER BY block DESC`). -/
def sortDescBy {α : Type} (key : α → Nat) : List α → List α
  | [] => []
  | x :: xs => insertDescBy key x (sortDescBy key xs)

/-! ## `contracts_reader.py`: `find_log` and the classifier -/

/-- The index of the first log whose `logIndex` equals `log_index`
(the `enumerate` scan inside `ContractsReader.find_log`), or `none`. -/
def findLogIdx : List AggEvent → Nat → Option Nat
  | [], _ => none
  | log :: rest, log_index =>
    if log_index == log.logIndex then some 0
    else (findLogIdx rest log_index).map (· + 1)

/-- `ContractsReader.find_log`: scan the decoded logs for one whose
`logIndex` matches; if none matches, fall back to index 0. -/
def find_log (logs : List AggEvent) (log_index : Nat) : Nat :=
  (findLogIdx logs log_index).getD 0

/-- Append `e` to the list stored under `key` (the
`distributed_events[block_number][key].append(event)` dict operation). -/
def addToKey (g : EventsDict) (key : String) (e : AggEvent) : EventsDict :=
  g.map (fun p => if p.1 == key then (p.1, p.2 ++ [e]) else p)

/-- `rich_logs[self.find_log(rich_logs, log_index)]`: select the decoded log
matching the raw log's index (`none` models the `IndexError` raised when the
receipt decoded to an empty tuple).  `richLogs` is the oracle for
`processReceipt` on the given event type and transaction. -/
def pickRichLog (richLogs : String → Nat → List AggEvent) (ty : String)
    (event : RawLog) : Option AggEvent :=
  let rich := richLogs ty event.transactionHash
  rich.get? ( find_log rich event.logIndex)

/-- The raw Transfer log appended verbatim by `events['Transfer'].append(event)`. -/
def rawToTransfer (event : RawLog) : AggEvent :=
  { blockNumber := event.blockNumber, logIndex := event.logIndex,
    event := "Transfer", receiver := event.receiver }

/-- The `for topic in topics` loop of `distribute_events`: the first topic
matching a known event hash classifies the log and breaks; an unrecognised
topic is skipped. -/
def classifyTopics (richLogs : String → Nat → List AggEvent) (evs : EventsDict)
    (event : RawLog) : List Topic → Option EventsDict
  | [] => some evs
  | t :: rest =>
    match t with
    | Topic.deposited => (pickRichLog richLogs "Deposited" event).map (addToKey evs "Deposited")
    | Topic.losses => (pickRichLog richLogs "Losses" event).map (addToKey evs "Losses")
    | Topic.redeemed => (pickRichLog richLogs "Redeemed" event).map (addToKey evs "Redeemed")
    | Topic.rewards => (pickRichLog richLogs "Rewards" event).map (addToKey evs "Rewards")
    | Topic.transfer => some (addToKey evs "Transfer" (rawToTransfer event))
    | Topic.other => classifyTopics richLogs evs event rest

/-- The empty five-key dict literal at the top of `distribute_events`,
keys in Python insertion order. -/
def emptyNimbusEvents : EventsDict :=
  [("Deposited", []), ("Losses", []), ("Redeemed", []), ("Rewards", []), ("Transfer", [])]

/-- `ContractsReader.distribute_events`: distribute raw logs by event type.
Empty input returns the empty dict (early `return {}`). -/
def distribute_events (richLogs : String → Nat → List AggEvent)
    (events_mixed : List RawLog) : Option EventsDict :=
  if events_mixed.isEmpty then some []
  else events_mixed.foldlM (fun evs e => classifyTopics richLogs evs e e.topics)
    emptyNimbusEvents

/-! ## `utils.py` -/

/-- `utils.DAYS_IN_YEAR`. -/
def DAYS_IN_YEAR : Nat := 365

/-- Ensure the block has a group in the dict, then append the event under
`key` — the body of the inner loop of `distribute_events_by_blocks`.  A new
block's group is initialised with one empty list per key of the source dict
and is appended at the end (Python dict insertion order). -/
def insertEvent (keys : List String) (dist : BlockDist) (key : String)
    (e : AggEvent) : BlockDist :=
  let dist' := if dist.any (fun p => p.1 == e.blockNumber) then dist
    else dist ++ [(e.blockNumber, keys.map (fun k => (k, ([] : List AggEvent))))]
  dist'.map (fun p => if p.1 == e.blockNumber then (p.1, addToKey p.2 key e) else p)

/-- `utils.distribute_events_by_blocks`: regroup a type-keyed event dict by
block number, iterating the type keys in dict order and the events of each
type in list order. -/
def distribute_events_by_blocks (events : EventsDict) : BlockDist :=
  events.foldl
    (fun dist p => p.2.foldl (fun d e => insertEvent (events.map Prod.fst) d p.1 e) dist)
    []

/-- The per-entry instantaneous rate inside `utils.calculate_apr`:
`reward[1] / denominator * eras_per_day * DAYS_IN_YEAR if denominator else 0`
with `denominator = reward[2] - reward[1]`. -/
def rateOf (eras_per_day : Nat) (r : RewardRow) : ℚ :=
  let denominator : Int := r.balance - r.reward
  if denominator ≠ 0 then
    (r.reward : ℚ) / (denominator : ℚ) * (eras_per_day : ℚ) * (DAYS_IN_YEAR : ℚ)
  else 0

/-- The per-ledger retained rates: every rate with `_apr < apr_min or
_apr > apr_max` is skipped by the `continue`. -/
def retainedRates (eras_per_day : Nat) (apr_min apr_max : ℚ)
    (entries : List RewardRow) : List ℚ :=
  (entries.map (rateOf eras_per_day)).filter
    (fun r => !(decide (r < apr_min) || decide (apr_max < r)))

/-- `utils.calculate_apr`: average the retained rates per ledger, then
average across ledgers having at least one retained rate; keep `total_apr`
when no ledger does. -/
def calculate_apr (total_apr : ℚ) (rewards : List (String × List RewardRow))
    (eras_per_day : Nat) (apr_min apr_max : ℚ) : ℚ :=
  let apr := rewards.map (fun p => (p.1, retainedRates eras_per_day apr_min apr_max p.2))
  let averaged_apr := (apr.filter (fun p => !p.2.isEmpty)).map
    (fun p => p.2.sum / (p.2.length : ℚ))
  if averaged_apr.isEmpty then total_apr
  else averaged_apr.sum / (averaged_apr.length : ℚ)

/-- `utils.decrease_range_of_blocks`: deduct 10% (at least 1 and, when the
10% truncates to zero on a range still above 1, exactly 1) from the range. -/
def decrease_range_of_blocks (range_current : Nat) : Nat :=
  let range_new := max (range_current - range_current / 10) 1
  if range_new = range_current ∧ 1 < range_new then range_new - 1 else range_new

/-! ## `contract_event_filter.py`: the `ContractEventFilter` state -/

/-- The mutable fields of `ContractEventFilter` the scanning logic reads and
writes. -/
structure FilterState where
  from_block : Int
  to_block : Int
  uninstalled : Bool
deriving DecidableEq

/-- `ContractEventFilter.__init__`: asserts `from_block <= to_block`
(`none` models the `AssertionError`), then installs the filter. -/
def initContractEventFilter (from_block to_block : Int) : Option FilterState :=
  if from_block ≤ to_block then
    some { from_block := from_block, to_block := to_block, uninstalled := false }
  else none

/-- `ContractEventFilter._init_filter`: re-create the provider-side handle. -/
def init_filter (fs : FilterState) : FilterState :=
  { fs with uninstalled := false }

/-- `ContractEventFilter.uninstall` (the provider call itself is external). -/
def uninstallFilter (fs : FilterState) : FilterState :=
  { fs with uninstalled := true }

/-- `ContractEventFilter.update_filter_range`: uninstall, overwrite both
bounds, re-install.  The source performs no bound check here. -/
def update_filter_range (_fs : FilterState) (from_block to_block : Int) : FilterState :=
  { from_block := from_block, to_block := to_block, uninstalled := false }

/-- The outcome of one provider `filter.get_all_entries()` attempt:
a result list, a stale-handle `ValueError` (one that is not the
too-many-results signature), or the range-too-large signal (the
`'query returned more than 10000 results'` `ValueError` or an
`asyncio` timeout). -/
inductive AttemptResult where
  | ok (entries : List RawLog)
  | staleError
  | rangeTooLarge
deriving DecidableEq

/-- What `get_all_entries` does for its caller: return sorted entries, or
re-raise the range-too-large signal. -/
inductive FetchOutcome where
  | entries (l : List RawLog)
  | rangeTooLarge
deriving DecidableEq

/-- The tail of `ContractEventFilter.get_all_entries` after the retry loop:
sort the entries ascending by block number, uninstall the handle and — when
any entry was returned — advance `from_block` past the last sorted entry's
block (stretching `to_block` if overtaken). -/
def finishEntries (fs : FilterState) (entries : List RawLog) : FilterState × FetchOutcome :=
  let sorted_events := sortAscBy (fun e => e.blockNumber) entries
  let fs1 := uninstallFilter fs
  match sorted_events.getLast? with
  | some lastEv =>
    let from_block : Int := (lastEv.blockNumber : Int) + 1
    let fs2 := { fs1 with from_block := from_block }
    let fs3 := if fs2.to_block < from_block then { fs2 with to_block := from_block } else fs2
    (fs3, FetchOutcome.entries sorted_events)
  | none => (fs1, FetchOutcome.entries sorted_events)

/-- `ContractEventFilter.get_all_entries`: re-install a previously
uninstalled handle, then try the provider fetch up to 2 times — a
range-too-large signal uninstalls and re-raises, a stale-handle error
re-installs and retries, and two stale-handle errors in a row fall out of
the loop with the initial empty `entries`. -/
def get_all_entries (fs : FilterState) (attempt1 attempt2 : AttemptResult) :
    FilterState × FetchOutcome :=
  let fs0 := if fs.uninstalled then init_filter fs else fs
  match attempt1 with
  | AttemptResult.ok es => finishEntries fs0 es
  | AttemptResult.rangeTooLarge => (uninstallFilter fs0, FetchOutcome.rangeTooLarge)
  | AttemptResult.staleError =>
    let fsA := init_filter fs0
    match attempt2 with
    | AttemptResult.ok es => finishEntries fsA es
    | AttemptResult.rangeTooLarge => (uninstallFilter fsA, FetchOutcome.rangeTooLarge)
    | AttemptResult.staleError => finishEntries (init_filter fsA) []

/-! ## `aggregated_metrics_exporter.py`: the Aggregator -/

/-- The in-memory fields of `AggregatedMetricsExporter` touched by the fold,
together with the two database tables the fold writes and reads
(`reward` rows via `add_reward`/`get_rewards`, the `holder` set via
`add_holder`/`get_holders_number`). -/
structure AggState where
  apr : ℚ := 0
  deposited : Int := 0
  deposited_events_num : Nat := 0
  redeemed : Int := 0
  redeemed_events_num : Nat := 0
  last_block_number_with_events : Int := -1
  rewards : Int := 0
  losses : Int := 0
  holders_number : Nat := 0
  db_rewards : List RewardRow := []
  db_holders : List String := []
deriving DecidableEq

/-- The configuration and chain reads the fold consults:
`ledger_addresses` models the `get_ledger_addresses()` contract call. -/
structure ScanParams where
  ledger_addresses : List String := []
  database_query_limit : Nat := 100
  eras_per_day : Nat := 4
  apr_min : ℚ := 0
  apr_max : ℚ := 1
  max_range_of_blocks : Nat := 1000

/-- `events[key]` on a classified dict (the key is present by construction). -/
def lookupKey (events : EventsDict) (k : String) : List AggEvent :=
  ((events.find? (fun p => p.1 == k)).map Prod.snd).getD []

/-- `DatabaseManager.add_holder` plus the holder table's unique constraint:
insert-if-absent. -/
def add_holder (db : List String) (h : String) : List String :=
  if db.contains h then db else db ++ [h]

/-- `DatabaseManager.get_rewards`: the rows of one ledger, by block
descending, limited to `limit`. -/
def get_rewards (db : List RewardRow) (ledger : String) (limit : Nat) : List RewardRow :=
  (sortDescBy (fun r => r.block) (db.filter (fun r => r.ledger == ledger))).take limit

/-- `_process_rewards_and_losses_events`: fold Rewards/Losses events into the
lifetime totals and collect `{ledger, reward, balance}` records, a loss
contributing a negated `reward`. -/
def processRewardsAndLosses (st : AggState) (events : List AggEvent) :
    AggState × List RewardRow :=
  events.foldl
    (fun (acc : AggState × List RewardRow) (e : AggEvent) =>
      if e.event == "Rewards" then
        ({ acc.1 with rewards := acc.1.rewards + e.amount },
         acc.2 ++ [{ ledger := e.ledger, reward := e.amount, balance := e.balance }])
      else
        ({ acc.1 with losses := acc.1.losses + e.amount },
         acc.2 ++ [{ ledger := e.ledger, reward := -e.amount, balance := e.balance }]))
    (st, [])

/-- The body of the `for block_number, events in distributed_events.items()`
loop of `get_and_process_aggregated_data`: fold one block's typed group into
the state, mirroring the source statement order (deposited/redeemed, then
rewards/losses, then transfers, then the reward-table inserts, then the APR
recomputation from the database, then `last_block_number_with_events`). -/
def processBlock (p : ScanParams) (st : AggState) (bg : Nat × EventsDict) : AggState :=
  let block_number := bg.1
  let events := bg.2
  let dep := lookupKey events "Deposited"
  let red := lookupKey events "Redeemed"
  let st1 := { st with
    deposited_events_num := st.deposited_events_num + dep.length,
    redeemed_events_num := st.redeemed_events_num + red.length }
  let st2 := { st1 with
    deposited := dep.foldl (fun (a : Int) (e : AggEvent) => a + e.amount) st1.deposited }
  let st3 := { st2 with
    redeemed := red.foldl (fun (a : Int) (e : AggEvent) => a + e.amount) st2.redeemed }
  let rl := processRewardsAndLosses st3 (lookupKey events "Rewards" ++ lookupKey events "Losses")
  let st4 := rl.1
  let st5 := { st4 with
    db_holders := (lookupKey events "Transfer").foldl
      (fun (hs : List String) (e : AggEvent) => add_holder hs e.receiver) st4.db_holders }
  let st6 := { st5 with holders_number := st5.db_holders.length }
  let st7 := { st6 with
    db_rewards := st6.db_rewards ++ rl.2.map (fun (r : RewardRow) => { r with block := block_number }) }
  let rewardsDict := p.ledger_addresses.foldl
    (fun (acc : List (String × List RewardRow)) (l : String) =>
      let lr := get_rewards st7.db_rewards l p.database_query_limit
      if lr.isEmpty then acc else acc ++ [(l, lr)])
    []
  let st8 := { st7 with
    apr := calculate_apr st7.apr rewardsDict p.eras_per_day p.apr_min p.apr_max }
  { st8 with last_block_number_with_events := (block_number : Int) }

/-- `AggregatedMetricsExporter.get_and_process_aggregated_data` from the
point where the classified events dict is in hand: regroup by block, fold
each group, and return `to_block + 1` as the next block to process. -/
def get_and_process_aggregated_data (p : ScanParams) (st : AggState)
    (_from_block to_block : Int) (events : EventsDict) : AggState × Int :=
  let distributed_events := distribute_events_by_blocks events
  let st' := distributed_events.foldl (processBlock p) st
  (st', to_block + 1)

/-- How the fetch-and-classify step (`get_nimbus_events`) of one cycle ends:
with a classified dict, with the range-too-large signal, or with an expected
or unexpected fault that routes through the reconnection path. -/
inductive FetchResult where
  | ok (events : EventsDict)
  | rangeTooLarge
  | networkError

/-- `AggregatedMetricsExporter._run`, one scan cycle: read the finalized
head, sleep when there is nothing new, otherwise clamp the range end and
process it; a range-too-large signal shrinks the window and leaves
everything else untouched; any other fault reconnects and leaves the cursor
and window untouched.  Returns the state and the new
`(from_block, current_range_of_blocks)` pair. -/
def run_cycle (p : ScanParams) (st : AggState) (from_block : Int)
    (current_range_of_blocks : Nat) (block_number : Int) (fetch : FetchResult) :
    AggState × Int × Nat :=
  if block_number ≤ from_block then (st, from_block, current_range_of_blocks)
  else
    let to_block0 := from_block + (current_range_of_blocks : Int)
    let to_block := if block_number < to_block0 then block_number else to_block0
    match fetch with
    | FetchResult.ok events =>
      let r := get_and_process_aggregated_data p st from_block to_block events
      (r.1, r.2, p.max_range_of_blocks)
    | FetchResult.rangeTooLarge =>
      (st, from_block, decrease_range_of_blocks current_range_of_blocks)
    | FetchResult.networkError => (st, from_block, current_range_of_blocks)


/-! ## Concrete scenario inputs -/

/-- The Scenario D reward-ledger input: two entries for ledger `L1`,
`(amount=10, balance=110, block=1)` and `(amount=-5, balance=95, block=2)`. -/
def scenarioD_rewards : List (String × List RewardRow) :=
  [("L1", [{ ledger := "L1", reward := 10, balance := 110, block := 1 },
           { ledger := "L1", reward := -5, balance := 95, block := 2 }])]

/-- The Scenario A classified events dict: one Deposited event with amount
50 at block 105, nothing else. -/
def scenarioA_events : EventsDict :=
  [("Deposited", [{ blockNumber := 105, event := "Deposited", amount := 50 }]),
   ("Losses", []), ("Redeemed", []), ("Rewards", []), ("Transfer", [])]

/-- A classified dict all of whose events are Deposited events: the shape
the classifier produces when the fetched range contains a single event
type. -/
def mkDepositedOnly (es : List AggEvent) : EventsDict :=
  [("Deposited", es), ("Losses", []), ("Redeemed", []), ("Rewards", []), ("Transfer", [])]

/-- A classified dict with events of two types: one Deposited event at
block 105 and one Transfer event at the earlier block 103 (the shape the
classifier produces from a sorted fetch `[transfer@103, deposited@105]`). -/
def cexEvents : EventsDict :=
  [("Deposited", [{ blockNumber := 105, event := "Deposited", amount := 50 }]),
   ("Losses", []), ("Redeemed", []), ("Rewards", []),
   ("Transfer", [{ blockNumber := 103, event := "Transfer", receiver := "0xabc" }])]

/-! ## Helper lemmas -/

theorem decrease_pos (w : Nat) : 1 ≤ decrease_range_of_blocks w := by
  unfold decrease_range_of_blocks
  have hd : w / 10 ≤ w := Nat.div_le_self w 10
  dsimp only
  split <;> omega

theorem decrease_lt (w : Nat) (h2 : 2 ≤ w) : decrease_range_of_blocks w < w := by
  unfold decrease_range_of_blocks
  have hd : w / 10 ≤ w := Nat.div_le_self w 10
  dsimp only
  by_cases h10 : 10 ≤ w
  · have h1 : 1 ≤ w / 10 := (Nat.one_le_div_iff (by norm_num)).mpr h10
    split <;> omega
  · have h0 : w / 10 = 0 := Nat.div_eq_of_lt (by omega)
    split <;> omega

theorem decrease_iterate_pos (n w : Nat) (h : 1 ≤ w) :
    1 ≤ Nat.iterate decrease_range_of_blocks n w := by
  induction n generalizing w with
  | zero => exact h
  | succ n ih =>
    rw [Function.iterate_succ_apply]
    exact ih _ (decrease_pos w)

theorem decrease_reaches_one (w : Nat) (h1 : 1 ≤ w) :
    ∃ n, Nat.iterate decrease_range_of_blocks n w = 1 := by
  induction w using Nat.strong_induction_on with
  | _ w ih =>
    by_cases h2 : 2 ≤ w
    · obtain ⟨n, hn⟩ := ih (decrease_range_of_blocks w) (decrease_lt w h2) (decrease_pos w)
      exact ⟨n + 1, by rw [Function.iterate_succ_apply]; exact hn⟩
    · have hw : w = 1 := by omega
      exact ⟨0, by simp [hw]⟩

/-! ## Claim C2 -/

/-- C2: one application of `decrease_range_of_blocks` on a window `w ≥ 2`
returns a strictly smaller window that is still at least 1; the shrink of 1
is 1; iterated shrinking never produces 0 and reaches 1 from any starting
width at least 1. -/
theorem decrease_range_shrink_convergence :
    (∀ w, 2 ≤ w → decrease_range_of_blocks w < w ∧ 1 ≤ decrease_range_of_blocks w)
    ∧ decrease_range_of_blocks 1 = 1
    ∧ (∀ w n, 1 ≤ w → 1 ≤ Nat.iterate decrease_range_of_blocks n w)
    ∧ (∀ w, 1 ≤ w → ∃ n, Nat.iterate decrease_range_of_blocks n w = 1) := by
  refine ⟨fun w h => ⟨decrease_lt w h, decrease_pos w⟩, by decide,
    fun w n h => decrease_iterate_pos n w h, fun w h => decrease_reaches_one w h⟩

/-- Witness for C2 at the concrete window 1000. -/
theorem decrease_range_shrink_convergence_witness :
    decrease_range_of_blocks 1000 < 1000 ∧ 1 ≤ decrease_range_of_blocks 1000 :=
  decrease_range_shrink_convergence.1 1000 (by decide)

/-! ## Claim C3 -/

/-- C3: a cycle that ends with the range-too-large signal returns the
unchanged aggregate state and the unchanged `from_block`, shrinking only the
window size, so the next cycle re-requests a range starting at the same
`from_block`. -/
theorem range_too_large_keeps_cursor_and_state (p : ScanParams) (st : AggState)
    (from_block : Int) (current_range : Nat) (head : Int) (h : from_block < head) :
    run_cycle p st from_block current_range head FetchResult.rangeTooLarge
      = (st, from_block, decrease_range_of_blocks current_range) := by
  unfold run_cycle
  rw [if_neg (by omega)]

/-- Witness for C3 at a concrete cycle (Scenario B numbers). -/
theorem range_too_large_keeps_cursor_and_state_witness :
    run_cycle {} {} 100 1000 2000 FetchResult.rangeTooLarge
      = ({}, 100, decrease_range_of_blocks 1000) :=
  range_too_large_keeps_cursor_and_state {} {} 100 1000 2000 (by decide)

/-! ## Claim C9 -/

/-- C9 counterexample: `update_filter_range` accepts `from_block = 5,
to_block = 3` without any check, leaving the filter holding a range with
`from_block > to_block`. -/
theorem update_filter_range_no_check_counterexample :
    update_filter_range { from_block := 0, to_block := 10, uninstalled := false } 5 3
      = { from_block := 5, to_block := 3, uninstalled := false }
    ∧ ¬((5 : Int) ≤ 3) := by
  exact ⟨rfl, by decide⟩

/-- C9 amended: the `from_block ≤ to_block` precondition is enforced only at
construction (`__init__` asserts and fails fast); `update_filter_range`
stores any pair of bounds unchecked. -/
theorem filter_range_check_only_at_construction :
    (∀ f t : Int, t < f → initContractEventFilter f t = none)
    ∧ (∀ f t : Int, f ≤ t → initContractEventFilter f t
        = some { from_block := f, to_block := t, uninstalled := false })
    ∧ (∀ (fs : FilterState) (f t : Int), update_filter_range fs f t
        = { from_block := f, to_block := t, uninstalled := false }) := by
  refine ⟨fun f t h => ?_, fun f t h => ?_, fun fs f t => rfl⟩
  · unfold initContractEventFilter
    rw [if_neg (by omega)]
  · unfold initContractEventFilter
    rw [if_pos h]

/-- Witness for C9 amended: construction with `7 > 3` fails, construction
with `3 ≤ 7` succeeds. -/
theorem filter_range_check_only_at_construction_witness :
    initContractEventFilter 7 3 = none
    ∧ initContractEventFilter 3 7
        = some { from_block := 3, to_block := 7, uninstalled := false } :=
  ⟨filter_range_check_only_at_construction.1 7 3 (by decide),
   filter_range_check_only_at_construction.2.1 3 7 (by decide)⟩

/-! ## Claim C10 -/

theorem findLogIdx_eq_none_iff (logs : List AggEvent) (t : Nat) :
    findLogIdx logs t = none ↔ ∀ l ∈ logs, l.logIndex ≠ t := by
  induction logs with
  | nil => simp [findLogIdx]
  | cons x xs ih =>
    by_cases h : t = x.logIndex
    · simp [findLogIdx, h]
    · simp only [findLogIdx, beq_iff_eq, if_neg h, Option.map_eq_none', ih,
        List.mem_cons]
      constructor
      · rintro hall l (rfl | hl)
        · exact fun hc => h hc.symm
        · exact hall l hl
      · intro hall l hl
        exact hall l (Or.inr hl)

theorem findLogIdx_some_spec (logs : List AggEvent) (t j : Nat)
    (h : findLogIdx logs t = some j) :
    (∃ l, logs.get? j = some l ∧ l.logIndex = t)
    ∧ ∀ k l', k < j → logs.get? k = some l' → l'.logIndex ≠ t := by
  induction logs generalizing j with
  | nil => simp [findLogIdx] at h
  | cons x xs ih =>
    by_cases hx : t = x.logIndex
    · simp only [findLogIdx, beq_iff_eq, if_pos hx, Option.some.injEq] at h
      subst h
      exact ⟨⟨x, rfl, hx.symm⟩, fun k l' hk => by omega⟩
    · simp only [findLogIdx, beq_iff_eq, if_neg hx, Option.map_eq_some'] at h
      obtain ⟨j', hj', rfl⟩ := h
      obtain ⟨⟨l, hl, hlt⟩, hbefore⟩ := ih j' hj'
      refine ⟨⟨l, by simpa using hl, hlt⟩, ?_⟩
      intro k l' hk hget
      cases k with
      | zero =>
        simp only [List.get?_cons_zero, Option.some.injEq] at hget
        subst hget
        exact fun hc => hx hc.symm
      | succ k' =>
        simp only [List.get?_cons_succ] at hget
        exact hbefore k' l' (by omega) hget

theorem find_log_lt_length (logs : List AggEvent) (t : Nat) (h : logs ≠ []) :
    find_log logs t < logs.length := by
  unfold find_log
  cases hf : findLogIdx logs t with
  | none =>
    simp only [Option.getD_none]
    cases logs with
    | nil => exact absurd rfl h
    | cons x xs => simp
  | some j =>
    simp only [Option.getD_some]
    obtain ⟨⟨l, hl, _⟩, _⟩ := findLogIdx_some_spec logs t j hf
    by_contra hge
    rw [List.get?_eq_none.mpr (by omega)] at hl
    exact Option.noConfusion hl

/-- C10: when some decoded log matches the target `logIndex`, `find_log`
returns the position of the first matching log; when none matches it returns
the fallback 0; in either case, on a non-empty decoded list, the returned
position is a valid index, so the classifier always selects a decoded log. -/
theorem find_log_first_match_or_zero (logs : List AggEvent) (t : Nat) :
    ((∃ l ∈ logs, l.logIndex = t) →
      (∃ l, logs.get? (find_log logs t) = some l ∧ l.logIndex = t)
      ∧ ∀ k l', k < find_log logs t → logs.get? k = some l' → l'.logIndex ≠ t)
    ∧ ((∀ l ∈ logs, l.logIndex ≠ t) → find_log logs t = 0)
    ∧ (logs ≠ [] → find_log logs t < logs.length) := by
  refine ⟨?_, ?_, find_log_lt_length logs t⟩
  · intro hex
    cases hf : findLogIdx logs t with
    | none =>
      obtain ⟨l, hl, hlt⟩ := hex
      exact absurd hlt ((findLogIdx_eq_none_iff logs t).mp hf l hl)
    | some j =>
      have := findLogIdx_some_spec logs t j hf
      simpa [find_log, hf] using this
  · intro hall
    simp [find_log, (findLogIdx_eq_none_iff logs t).mpr hall]

/-- Witness for C10 on a concrete decoded list: the second log matches
index 7 and is a valid selection. -/
theorem find_log_first_match_or_zero_witness :
    ((∃ l, ([{ logIndex := 5 }, { logIndex := 7 }] : List AggEvent).get?
        (find_log [{ logIndex := 5 }, { logIndex := 7 }] 7) = some l ∧ l.logIndex = 7)
      ∧ ∀ k l', k < find_log [{ logIndex := 5 }, { logIndex := 7 }] 7 →
          ([{ logIndex := 5 }, { logIndex := 7 }] : List AggEvent).get? k = some l' →
          l'.logIndex ≠ 7)
    ∧ find_log [{ logIndex := 5 }, { logIndex := 7 }] 7
        < ([{ logIndex := 5 }, { logIndex := 7 }] : List AggEvent).length :=
  ⟨(find_log_first_match_or_zero [{ logIndex := 5 }, { logIndex := 7 }] 7).1
      ⟨{ logIndex := 7 }, by simp, rfl⟩,
   (find_log_first_match_or_zero [{ logIndex := 5 }, { logIndex := 7 }] 7).2.2
      (by simp)⟩

/-! ## Claims C5 and C6 -/

theorem retainedRates_mem_bounds (eras_per_day : Nat) (apr_min apr_max : ℚ)
    (entries : List RewardRow) :
    ∀ r ∈ retainedRates eras_per_day apr_min apr_max entries,
      apr_min ≤ r ∧ r ≤ apr_max := by
  intro r hr
  have := List.of_mem_filter hr
  simp only [Bool.not_eq_true', Bool.or_eq_false_iff, decide_eq_false_iff_not,
    not_lt] at this
  exact ⟨this.1, this.2⟩

theorem rateOf_zero_denominator (eras_per_day : Nat) (row : RewardRow)
    (h : row.balance - row.reward = 0) : rateOf eras_per_day row = 0 := by
  unfold rateOf
  rw [if_neg (by simpa using h)]

theorem calculate_apr_all_excluded (eras_per_day : Nat) (apr_min apr_max total_apr : ℚ)
    (rewards : List (String × List RewardRow))
    (hall : ∀ p ∈ rewards, retainedRates eras_per_day apr_min apr_max p.2 = []) :
    calculate_apr total_apr rewards eras_per_day apr_min apr_max = total_apr := by
  unfold calculate_apr
  have hfil : (rewards.map
      (fun p => (p.1, retainedRates eras_per_day apr_min apr_max p.2))).filter
        (fun p => !p.2.isEmpty) = [] := by
    rw [List.filter_eq_nil_iff]
    intro a ha
    obtain ⟨q, hq, rfl⟩ := List.mem_map.mp ha
    simp [hall q hq]
  dsimp only
  rw [hfil]
  simp

/-- C5: every retained per-entry rate lies inside `[apr_min, apr_max]`
(rates strictly below `apr_min` or strictly above `apr_max` are excluded
from the per-ledger average); the division is performed only for a non-zero
denominator `balance - amount` (otherwise the rate is the literal 0); and
when no ledger retains any rate, `calculate_apr` returns the previous APR
value unchanged. -/
theorem calculate_apr_clamp_and_keep_previous (eras_per_day : Nat)
    (apr_min apr_max total_apr : ℚ) (rewards : List (String × List RewardRow)) :
    (∀ entries : List RewardRow, ∀ r ∈ retainedRates eras_per_day apr_min apr_max entries,
        apr_min ≤ r ∧ r ≤ apr_max)
    ∧ (∀ row : RewardRow, row.balance - row.reward = 0 → rateOf eras_per_day row = 0)
    ∧ ((∀ p ∈ rewards, retainedRates eras_per_day apr_min apr_max p.2 = []) →
        calculate_apr total_apr rewards eras_per_day apr_min apr_max = total_apr) :=
  ⟨retainedRates_mem_bounds eras_per_day apr_min apr_max,
   fun row h => rateOf_zero_denominator eras_per_day row h,
   fun hall => calculate_apr_all_excluded eras_per_day apr_min apr_max total_apr rewards hall⟩

theorem scenarioD_retained_empty :
    ∀ p ∈ scenarioD_rewards, retainedRates 4 0 1 p.2 = [] := by
  intro p hp
  simp only [scenarioD_rewards, List.mem_singleton] at hp
  subst hp
  norm_num [retainedRates, rateOf, List.filter, DAYS_IN_YEAR]

/-- Witness for C5: on the all-excluded Scenario D input with prior APR 7,
the function returns 7. -/
theorem calculate_apr_clamp_and_keep_previous_witness :
    calculate_apr 7 scenarioD_rewards 4 0 1 = 7 :=
  (calculate_apr_clamp_and_keep_previous 4 0 1 7 scenarioD_rewards).2.2
    scenarioD_retained_empty

/-- C6: on the Scenario D input with `eras_per_day = 4`, `apr_min = 0`,
`apr_max = 1`, entry 1's rate is exactly `10/100*4*365 = 146` (excluded as
above `apr_max`), entry 2's rate is exactly `-5/100*4*365 = -73` (excluded
as below `apr_min`), and `calculate_apr` returns the prior APR unchanged,
for every prior value. -/
theorem scenarioD_rates_and_unchanged_apr : ∀ prior : ℚ,
    rateOf 4 { ledger := "L1", reward := 10, balance := 110, block := 1 } = 146
    ∧ rateOf 4 { ledger := "L1", reward := -5, balance := 95, block := 2 } = -73
    ∧ (1 : ℚ) < 146 ∧ (-73 : ℚ) < 0
    ∧ calculate_apr prior scenarioD_rewards 4 0 1 = prior := by
  intro prior
  refine ⟨by norm_num [rateOf, DAYS_IN_YEAR], by norm_num [rateOf, DAYS_IN_YEAR],
    by norm_num, by norm_num, ?_⟩
  exact calculate_apr_all_excluded 4 0 1 prior scenarioD_rewards scenarioD_retained_empty

/-! ## Claim C4 -/

/-- C4: two consecutive stale-handle `ValueError`s leave the retry loop with
the initial empty `entries`, so `get_all_entries` returns the empty list
(only marking the handle uninstalled) instead of raising; the classifier
turns the empty list into the empty dict, and the aggregation step over the
empty dict leaves the state untouched and still returns `to_block + 1`, so
the caller advances the cursor past the range and its events are silently
dropped. -/
theorem stale_fetch_twice_drops_range (fs : FilterState)
    (richLogs : String → Nat → List AggEvent) (p : ScanParams) (st : AggState)
    (from_block to_block : Int) :
    get_all_entries fs AttemptResult.staleError AttemptResult.staleError
      = ({ fs with uninstalled := true }, FetchOutcome.entries [])
    ∧ distribute_events richLogs [] = some []
    ∧ get_and_process_aggregated_data p st from_block to_block []
      = (st, to_block + 1) := by
  refine ⟨?_, rfl, rfl⟩
  obtain ⟨f, t, u⟩ := fs
  cases u <;> rfl

/-! ## Claim C7 -/

/-- C7: starting from the all-zero state, processing the range `[100,110]`
whose only event is Scenario A's Deposited event yields
`deposited = 50`, `deposited_events_num = 1`,
`last_block_number_with_events = 105`, and the returned next block is
`111 = to_block + 1` (not last-event-block + 1, which would be 106). -/
theorem scenarioA_aggregation :
    (get_and_process_aggregated_data {} {} 100 110 scenarioA_events).1.deposited = 50
    ∧ (get_and_process_aggregated_data {} {} 100 110 scenarioA_events).1.deposited_events_num = 1
    ∧ (get_and_process_aggregated_data {} {} 100 110 scenarioA_events).1.last_block_number_with_events = 105
    ∧ (get_and_process_aggregated_data {} {} 100 110 scenarioA_events).2 = 111
    ∧ (111 : Int) = 110 + 1 ∧ (111 : Int) ≠ 105 + 1 := by
  refine ⟨rfl, rfl, rfl, rfl, by norm_num, by norm_num⟩

/-! ## Sorting lemmas for Claim C8 -/

theorem insertAscBy_perm {α : Type} (key : α → Nat) (e : α) (l : List α) :
    (insertAscBy key e l).Perm (e :: l) := by
  induction l with
  | nil => simp [insertAscBy]
  | cons x xs ih =>
    simp only [insertAscBy]
    split
    · exact (ih.cons x).trans (List.Perm.swap e x xs)
    · exact List.Perm.refl _

theorem sortAscBy_perm {α : Type} (key : α → Nat) (l : List α) :
    (sortAscBy key l).Perm l := by
  induction l with
  | nil => simp [sortAscBy]
  | cons x xs ih =>
    simp only [sortAscBy]
    exact (insertAscBy_perm key x (sortAscBy key xs)).trans (ih.cons x)

theorem insertAscBy_pairwise {α : Type} (key : α → Nat) (e : α) (l : List α)
    (h : List.Pairwise (fun a b => key a ≤ key b) l) :
    List.Pairwise (fun a b => key a ≤ key b) (insertAscBy key e l) := by
  induction l with
  | nil => simp [insertAscBy]
  | cons x xs ih =>
    rw [List.pairwise_cons] at h
    simp only [insertAscBy]
    split
    case isTrue hlt =>
      rw [List.pairwise_cons]
      refine ⟨?_, ih h.2⟩
      intro y hy
      rcases List.mem_cons.mp ((insertAscBy_perm key e xs).mem_iff.mp hy) with rfl | hymem
      · exact Nat.le_of_lt hlt
      · exact h.1 y hymem
    case isFalse hge =>
      rw [List.pairwise_cons]
      refine ⟨?_, List.pairwise_cons.mpr h⟩
      intro y hy
      rcases List.mem_cons.mp hy with hyx | hymem
      · rw [hyx]; exact Nat.le_of_not_lt hge
      · exact Nat.le_trans (Nat.le_of_not_lt hge) (h.1 y hymem)

theorem sortAscBy_pairwise {α : Type} (key : α → Nat) (l : List α) :
    List.Pairwise (fun a b => key a ≤ key b) (sortAscBy key l) := by
  induction l with
  | nil => simp [sortAscBy]
  | cons x xs ih =>
    simp only [sortAscBy]
    exact insertAscBy_pairwise key x (sortAscBy key xs) ih

theorem insertAscBy_filter_key {α : Type} (key : α → Nat) (e : α) (l : List α) (b : Nat) :
    (insertAscBy key e l).filter (fun x => key x == b)
      = if key e == b then e :: l.filter (fun x => key x == b)
        else l.filter (fun x => key x == b) := by
  induction l with
  | nil =>
    by_cases hb : key e = b
    · simp [insertAscBy, List.filter, hb]
    · have hbf : (key e == b) = false := beq_eq_false_iff_ne.mpr hb
      simp [insertAscBy, List.filter, hbf, hb]
  | cons x xs ih =>
    simp only [insertAscBy]
    split
    case isTrue hlt =>
      by_cases hb : key e = b
      · have hxb : ¬(key x = b) := by omega
        simp [List.filter_cons, hb, hxb, ih]
      · simp only [List.filter_cons, ih, beq_iff_eq, if_neg hb]
    case isFalse hge =>
      by_cases hb : key e = b <;> simp [List.filter_cons, hb]

theorem sortAscBy_filter_key {α : Type} (key : α → Nat) (l : List α) (b : Nat) :
    (sortAscBy key l).filter (fun x => key x == b) = l.filter (fun x => key x == b) := by
  induction l with
  | nil => simp [sortAscBy]
  | cons x xs ih =>
    simp only [sortAscBy, insertAscBy_filter_key, List.filter_cons, ih]

theorem getLast?_mem_list {α : Type} : ∀ (l : List α) (m : α), l.getLast? = some m → m ∈ l := by
  intro l
  induction l with
  | nil => intro m h; simp at h
  | cons x xs ih =>
    intro m h
    cases xs with
    | nil => simp_all
    | cons y ys =>
      rw [List.getLast?_cons_cons] at h
      exact List.mem_cons_of_mem x (ih m h)

theorem pairwise_key_le_getLast {α : Type} (key : α → Nat) :
    ∀ (l : List α) (m : α), List.Pairwise (fun a b => key a ≤ key b) l →
      l.getLast? = some m → ∀ x ∈ l, key x ≤ key m := by
  intro l
  induction l with
  | nil => intro m _ h; simp at h
  | cons x xs ih =>
    intro m hp hl y hy
    cases xs with
    | nil =>
      simp only [List.getLast?_singleton, Option.some.injEq] at hl
      rcases List.mem_singleton.mp hy with rfl
      rw [hl]
    | cons z zs =>
      rw [List.getLast?_cons_cons] at hl
      rw [List.pairwise_cons] at hp
      rcases List.mem_cons.mp hy with rfl | hymem
      · exact hp.1 m (getLast?_mem_list _ m hl)
      · exact ih m hp.2 hl y hymem

theorem sortAscBy_ne_nil {α : Type} (key : α → Nat) (l : List α) (h : l ≠ []) :
    sortAscBy key l ≠ [] := by
  intro hc
  have := (sortAscBy_perm key l).length_eq
  rw [hc] at this
  cases l with
  | nil => exact h rfl
  | cons x xs => simp at this

theorem exists_getLast?_of_ne_nil {α : Type} : ∀ (l : List α), l ≠ [] → ∃ m, l.getLast? = some m := by
  intro l
  induction l with
  | nil => intro hne; exact absurd rfl hne
  | cons x xs ih =>
    intro _
    cases xs with
    | nil => exact ⟨x, rfl⟩
    | cons y ys =>
      obtain ⟨m, hm⟩ := ih (by simp)
      exact ⟨m, by rw [List.getLast?_cons_cons]; exact hm⟩

/-! ## Claim C8 -/

/-- C8: a successful fetch with a non-empty entry list returns the entries
sorted ascending by block number; the sort is a permutation of the provider
result and stable (per block number, the subsequence of entries is exactly
the provider-order subsequence); and the filter's internal `from_block` is
advanced to the maximum block number among the entries plus 1. -/
theorem get_all_entries_sorted_and_advances (fs : FilterState)
    (entries : List RawLog) (att2 : AttemptResult) (h : entries ≠ []) :
    ∃ M : Nat,
      (get_all_entries fs (AttemptResult.ok entries) att2).2
        = FetchOutcome.entries (sortAscBy (fun e => e.blockNumber) entries)
      ∧ (sortAscBy (fun e : RawLog => e.blockNumber) entries).Perm entries
      ∧ List.Pairwise (fun a b : RawLog => a.blockNumber ≤ b.blockNumber)
          (sortAscBy (fun e => e.blockNumber) entries)
      ∧ (∀ b : Nat, (sortAscBy (fun e : RawLog => e.blockNumber) entries).filter
            (fun e => e.blockNumber == b)
          = entries.filter (fun e => e.blockNumber == b))
      ∧ (get_all_entries fs (AttemptResult.ok entries) att2).1.from_block = (M : Int) + 1
      ∧ M ∈ entries.map (fun e => e.blockNumber)
      ∧ ∀ b ∈ entries.map (fun e => e.blockNumber), b ≤ M := by
  have hperm := sortAscBy_perm (fun e : RawLog => e.blockNumber) entries
  obtain ⟨m, hm⟩ := exists_getLast?_of_ne_nil _
    (sortAscBy_ne_nil (fun e : RawLog => e.blockNumber) entries h)
  refine ⟨m.blockNumber, ?_, hperm,
    sortAscBy_pairwise (fun e => e.blockNumber) entries,
    fun b => sortAscBy_filter_key (fun e => e.blockNumber) entries b, ?_, ?_, ?_⟩
  · show (finishEntries (if fs.uninstalled then init_filter fs else fs) entries).2 = _
    unfold finishEntries
    dsimp only
    rw [hm]
  · show (finishEntries (if fs.uninstalled then init_filter fs else fs) entries).1.from_block = _
    unfold finishEntries
    dsimp only
    rw [hm]
    dsimp only
    split <;> split <;> rfl
  · exact List.mem_map.mpr ⟨m, hperm.mem_iff.mp (getLast?_mem_list _ m hm), rfl⟩
  · intro b hb
    obtain ⟨x, hx, rfl⟩ := List.mem_map.mp hb
    exact pairwise_key_le_getLast (fun e : RawLog => e.blockNumber) _ m
      (sortAscBy_pairwise (fun e => e.blockNumber) entries) hm x (hperm.mem_iff.mpr hx)

/-- Witness for C8 on a concrete two-entry fetch (blocks 7 and 3). -/
theorem get_all_entries_sorted_and_advances_witness :
    ∃ M : Nat,
      (get_all_entries { from_block := 0, to_block := 10, uninstalled := false }
          (AttemptResult.ok [{ blockNumber := 7 }, { blockNumber := 3 }])
          AttemptResult.staleError).2
        = FetchOutcome.entries (sortAscBy (fun e => e.blockNumber)
            [{ blockNumber := 7 }, { blockNumber := 3 }])
      ∧ (sortAscBy (fun e : RawLog => e.blockNumber)
          [{ blockNumber := 7 }, { blockNumber := 3 }]).Perm
          [{ blockNumber := 7 }, { blockNumber := 3 }]
      ∧ List.Pairwise (fun a b : RawLog => a.blockNumber ≤ b.blockNumber)
          (sortAscBy (fun e => e.blockNumber) [{ blockNumber := 7 }, { blockNumber := 3 }])
      ∧ (∀ b : Nat, (sortAscBy (fun e : RawLog => e.blockNumber)
            [{ blockNumber := 7 }, { blockNumber := 3 }]).filter (fun e => e.blockNumber == b)
          = ([{ blockNumber := 7 }, { blockNumber := 3 }] : List RawLog).filter
              (fun e => e.blockNumber == b))
      ∧ (get_all_entries { from_block := 0, to_block := 10, uninstalled := false }
          (AttemptResult.ok [{ blockNumber := 7 }, { blockNumber := 3 }])
          AttemptResult.staleError).1.from_block = (M : Int) + 1
      ∧ M ∈ ([{ blockNumber := 7 }, { blockNumber := 3 }] : List RawLog).map
          (fun e => e.blockNumber)
      ∧ ∀ b ∈ ([{ blockNumber := 7 }, { blockNumber := 3 }] : List RawLog).map
          (fun e => e.blockNumber), b ≤ M :=
  get_all_entries_sorted_and_advances
    { from_block := 0, to_block := 10, uninstalled := false }
    [{ blockNumber := 7 }, { blockNumber := 3 }] AttemptResult.staleError
    (List.cons_ne_nil _ _)

/-! ## Lemmas on `distribute_events_by_blocks` and the per-block fold (Claim C1) -/

theorem getLast?_map_list {α β : Type} (f : α → β) :
    ∀ l : List α, (l.map f).getLast? = (l.getLast?).map f := by
  intro l
  induction l with
  | nil => rfl
  | cons x xs ih =>
    cases xs with
    | nil => rfl
    | cons y ys =>
      show (f x :: f y :: List.map f ys).getLast? = Option.map f ((x :: y :: ys).getLast?)
      rw [List.getLast?_cons_cons, List.getLast?_cons_cons]
      exact ih

theorem processBlock_last (p : ScanParams) (st : AggState) (bg : Nat × EventsDict) :
    (processBlock p st bg).last_block_number_with_events = (bg.1 : Int) := rfl

theorem foldl_processBlock_getLast (p : ScanParams) :
    ∀ (dist : BlockDist) (st : AggState) (b : Nat) (g : EventsDict),
      dist.getLast? = some (b, g) →
      (dist.foldl (processBlock p) st).last_block_number_with_events = (b : Int) := by
  intro dist
  induction dist with
  | nil => intro st b g hb; simp at hb
  | cons x rest ih =>
    intro st b g hb
    cases rest with
    | nil =>
      simp only [List.getLast?_singleton, Option.some.injEq] at hb
      subst hb
      rw [List.foldl_cons, List.foldl_nil]
      exact processBlock_last p st (b, g)
    | cons y ys =>
      rw [List.getLast?_cons_cons] at hb
      rw [List.foldl_cons]
      exact ih (processBlock p st x) b g hb

theorem map_fst_insertEvent (keys : List String) (dist : BlockDist) (key : String)
    (e : AggEvent) :
    (insertEvent keys dist key e).map Prod.fst
      = if dist.any (fun p => p.1 == e.blockNumber) then dist.map Prod.fst
        else dist.map Prod.fst ++ [e.blockNumber] := by
  unfold insertEvent
  dsimp only
  split
  case isTrue hany =>
    rw [List.map_map]
    apply List.map_congr_left
    intro p _
    dsimp only [Function.comp]
    split <;> rfl
  case isFalse hany =>
    rw [List.map_map, List.map_append]
    congr 1
    · apply List.map_congr_left
      intro p _
      dsimp only [Function.comp]
      split <;> rfl
    · simp

theorem insertEvent_fold_spec (keys : List String) (key : String) :
    ∀ (es : List AggEvent) (dist : BlockDist),
      List.Pairwise (fun a b : AggEvent => a.blockNumber ≤ b.blockNumber) es →
      List.Pairwise (· < ·) (dist.map Prod.fst) →
      (∀ b ∈ dist.map Prod.fst, ∀ e ∈ es, b ≤ e.blockNumber) →
      List.Pairwise (· < ·)
          ((es.foldl (fun d e => insertEvent keys d key e) dist).map Prod.fst)
      ∧ (∀ b ∈ (es.foldl (fun d e => insertEvent keys d key e) dist).map Prod.fst,
          b ∈ dist.map Prod.fst ∨ b ∈ es.map (fun e => e.blockNumber))
      ∧ (∀ b ∈ dist.map Prod.fst,
          b ∈ (es.foldl (fun d e => insertEvent keys d key e) dist).map Prod.fst)
      ∧ (∀ e ∈ es, e.blockNumber ∈
          (es.foldl (fun d e => insertEvent keys d key e) dist).map Prod.fst) := by
  intro es
  induction es with
  | nil =>
    intro dist _ hdist _
    exact ⟨hdist, fun b hb => Or.inl hb, fun b hb => hb, by simp⟩
  | cons e rest ih =>
    intro dist hes hdist hbound
    rw [List.pairwise_cons] at hes
    have hkeys := map_fst_insertEvent keys dist key e
    by_cases hany : dist.any (fun p => p.1 == e.blockNumber)
    · rw [if_pos hany] at hkeys
      have hdist' : List.Pairwise (· < ·) ((insertEvent keys dist key e).map Prod.fst) := by
        rw [hkeys]; exact hdist
      have hbound' : ∀ b ∈ (insertEvent keys dist key e).map Prod.fst,
          ∀ e' ∈ rest, b ≤ e'.blockNumber := by
        rw [hkeys]
        intro b hb e' he'
        exact hbound b hb e' (List.mem_cons_of_mem e he')
      obtain ⟨c1, c2, c3, c4⟩ := ih (insertEvent keys dist key e) hes.2 hdist' hbound'
      rw [List.foldl_cons]
      refine ⟨c1, ?_, ?_, ?_⟩
      · intro b hb
        rcases c2 b hb with hin | hin
        · rw [hkeys] at hin; exact Or.inl hin
        · exact Or.inr (List.mem_cons_of_mem _ hin)
      · intro b hb
        exact c3 b (by rw [hkeys]; exact hb)
      · intro e' he'
        rcases List.mem_cons.mp he' with rfl | hmem
        · apply c3
          rw [hkeys]
          obtain ⟨p, hp, hpb⟩ := List.any_eq_true.mp hany
          exact List.mem_map.mpr ⟨p, hp, beq_iff_eq.mp hpb⟩
        · exact c4 e' hmem
    · rw [if_neg hany] at hkeys
      have hnotin : e.blockNumber ∉ dist.map Prod.fst := by
        intro hc
        obtain ⟨p, hp, hpb⟩ := List.mem_map.mp hc
        exact hany (List.any_eq_true.mpr ⟨p, hp, beq_iff_eq.mpr hpb⟩)
      have hdist' : List.Pairwise (· < ·) ((insertEvent keys dist key e).map Prod.fst) := by
        rw [hkeys, List.pairwise_append]
        refine ⟨hdist, List.pairwise_singleton _ _, ?_⟩
        intro a ha b hb
        rw [List.mem_singleton] at hb
        subst hb
        have hle := hbound a ha e (List.mem_cons_self e rest)
        have hne : a ≠ e.blockNumber := fun hc => hnotin (hc ▸ ha)
        omega
      have hbound' : ∀ b ∈ (insertEvent keys dist key e).map Prod.fst,
          ∀ e' ∈ rest, b ≤ e'.blockNumber := by
        rw [hkeys]
        intro b hb e' he'
        rcases List.mem_append.mp hb with hin | hin
        · exact hbound b hin e' (List.mem_cons_of_mem e he')
        · rw [List.mem_singleton] at hin
          subst hin
          exact hes.1 e' he'
      obtain ⟨c1, c2, c3, c4⟩ := ih (insertEvent keys dist key e) hes.2 hdist' hbound'
      rw [List.foldl_cons]
      refine ⟨c1, ?_, ?_, ?_⟩
      · intro b hb
        rcases c2 b hb with hin | hin
        · rw [hkeys] at hin
          rcases List.mem_append.mp hin with h1 | h1
          · exact Or.inl h1
          · rw [List.mem_singleton] at h1
            subst h1
            exact Or.inr (by simp)
        · exact Or.inr (List.mem_cons_of_mem _ hin)
      · intro b hb
        exact c3 b (by rw [hkeys]; exact List.mem_append_left _ hb)
      · intro e' he'
        rcases List.mem_cons.mp he' with rfl | hmem
        · exact c3 e'.blockNumber (by rw [hkeys]; exact List.mem_append_right _ (by simp))
        · exact c4 e' hmem

theorem distribute_mkDepositedOnly (es : List AggEvent) :
    distribute_events_by_blocks (mkDepositedOnly es)
      = es.foldl (fun d e => insertEvent
          ["Deposited", "Losses", "Redeemed", "Rewards", "Transfer"] d "Deposited" e) [] := rfl

/-! ## Claim C1 -/

/-- C1 counterexample: with a Deposited event at block 105 and a Transfer
event at block 103, `distribute_events_by_blocks` lists the groups in
type-major insertion order `[105, 103]` — not ascending — and the fold ends
with `last_block_number_with_events = 103`, strictly smaller than block 105
which contained an event and was already folded in the same cycle. -/
theorem aggregator_fold_order_counterexample :
    (distribute_events_by_blocks cexEvents).map Prod.fst = [105, 103]
    ∧ (get_and_process_aggregated_data {} {} 100 110 cexEvents).1.last_block_number_with_events = 103
    ∧ (lookupKey cexEvents "Deposited").map (fun e => e.blockNumber) = [105]
    ∧ (103 : Int) < 105 :=
  ⟨rfl, rfl, rfl, by norm_num⟩

/-- C1 amended: the Aggregator folds the per-block groups in the dict
insertion order produced by `distribute_events_by_blocks` — grouped by
event type in classifier key order, ascending by block within each type —
and `last_block_number_with_events` ends equal to the block number of the
*last group in that order*.  When all events of the range are of a single
type (here: Deposited) with non-decreasing block numbers, that order is
strictly ascending in block number and the final
`last_block_number_with_events` is the largest block that contained events;
with several event types it can end on a smaller block than one already
folded (see the counterexample). -/
theorem aggregator_fold_order_amended :
    (∀ (p : ScanParams) (st : AggState) (fb tb : Int) (events : EventsDict)
        (b : Nat) (g : EventsDict),
        (distribute_events_by_blocks events).getLast? = some (b, g) →
        (get_and_process_aggregated_data p st fb tb events).1.last_block_number_with_events
          = (b : Int))
    ∧ (∀ es : List AggEvent,
        List.Pairwise (fun a b : AggEvent => a.blockNumber ≤ b.blockNumber) es →
        List.Pairwise (· < ·)
            ((distribute_events_by_blocks (mkDepositedOnly es)).map Prod.fst)
        ∧ (∀ (p : ScanParams) (st : AggState) (fb tb : Int), es ≠ [] →
            ∃ M : Nat,
              (get_and_process_aggregated_data p st fb tb
                  (mkDepositedOnly es)).1.last_block_number_with_events = (M : Int)
              ∧ M ∈ es.map (fun e => e.blockNumber)
              ∧ ∀ x ∈ es.map (fun e => e.blockNumber), x ≤ M)) := by
  constructor
  · intro p st fb tb events b g hlast
    have hrepr : (get_and_process_aggregated_data p st fb tb events).1
        = (distribute_events_by_blocks events).foldl (processBlock p) st := rfl
    rw [hrepr]
    exact foldl_processBlock_getLast p _ st b g hlast
  · intro es hes
    have hspec := insertEvent_fold_spec
      ["Deposited", "Losses", "Redeemed", "Rewards", "Transfer"] "Deposited" es []
      hes (by simp) (by simp)
    rw [← distribute_mkDepositedOnly] at hspec
    obtain ⟨c1, c2, c3, c4⟩ := hspec
    refine ⟨c1, ?_⟩
    intro p st fb tb hne
    obtain ⟨e0, rest, rfl⟩ := List.exists_cons_of_ne_nil hne
    have hdne : distribute_events_by_blocks (mkDepositedOnly (e0 :: rest)) ≠ [] := by
      intro hc
      have hmem := c4 e0 (List.mem_cons_self e0 rest)
      rw [hc] at hmem
      simp at hmem
    obtain ⟨bg, hlast⟩ := exists_getLast?_of_ne_nil _ hdne
    refine ⟨bg.1, ?_, ?_, ?_⟩
    · have hrepr : (get_and_process_aggregated_data p st fb tb (mkDepositedOnly (e0 :: rest))).1
          = (distribute_events_by_blocks (mkDepositedOnly (e0 :: rest))).foldl
              (processBlock p) st := rfl
      rw [hrepr]
      exact foldl_processBlock_getLast p _ st bg.1 bg.2
        (by rw [Prod.mk.eta]; exact hlast)
    · have hbk : bg.1 ∈ (distribute_events_by_blocks (mkDepositedOnly (e0 :: rest))).map
          Prod.fst :=
        List.mem_map.mpr ⟨bg, getLast?_mem_list _ _ hlast, rfl⟩
      rcases c2 bg.1 hbk with h0 | h1
      · simp at h0
      · exact h1
    · intro x hx
      obtain ⟨e', he', rfl⟩ := List.mem_map.mp hx
      have hxk := c4 e' he'
      have hkeysLast : ((distribute_events_by_blocks (mkDepositedOnly (e0 :: rest))).map
          Prod.fst).getLast? = some bg.1 := by
        rw [getLast?_map_list, hlast]
        rfl
      exact pairwise_key_le_getLast (fun n : Nat => n) _ bg.1
        (c1.imp (fun h => Nat.le_of_lt h)) hkeysLast _ hxk

/-- Witness for C1 amended on two Deposited events at blocks 104 and 105:
the fold ends on the largest block 105. -/
theorem aggregator_fold_order_amended_witness :
    ∃ M : Nat,
      (get_and_process_aggregated_data {} {} 100 110
          (mkDepositedOnly
            [{ blockNumber := 104, event := "Deposited", amount := 1 },
             { blockNumber := 105, event := "Deposited", amount := 50 }])).1.last_block_number_with_events
        = (M : Int)
      ∧ M ∈ ([{ blockNumber := 104, event := "Deposited", amount := 1 },
              { blockNumber := 105, event := "Deposited", amount := 50 }] : List AggEvent).map
          (fun e => e.blockNumber)
      ∧ ∀ x ∈ ([{ blockNumber := 104, event := "Deposited", amount := 1 },
                { blockNumber := 105, event := "Deposited", amount := 50 }] : List AggEvent).map
          (fun e => e.blockNumber), x ≤ M :=
  (aggregator_fold_order_amended.2
    [{ blockNumber := 104, event := "Deposited", amount := 1 },
     { blockNumber := 105, event := "Deposited", amount := 50 }]
    (by decide)).2 {} {} 100 110 (by decide)
